import Mathlib

/-!
Verification development for the temporal resampling, evaluation and
axis-ensembling core of the Temporal4DFlowNet repository.

Arrays are modelled by `NArr α`: a shape (list of dimension sizes) together
with a total coordinate lookup function (junk outside the valid index range).
`assert` failures and numpy broadcasting errors are modelled by `Option`:
a routine returns `none` exactly when the Python original raises.
Scalars are modelled exactly (a `DivisionRing`, instantiated at `ℚ` or `ℝ`),
so floating rounding is ignored but all control flow and index arithmetic is
taken verbatim from `src/temporal_downsampling.py`,
`src/utils/evaluate_utils.py` and `src/predictor_temporal_all_axis.py`.
-/

/-- An n-dimensional array: a shape and a total lookup on coordinate lists. -/
structure NArr (α : Type) where
  shape : List Nat
  get : List Nat → α

/-- numpy broadcast compatibility of a source shape against a target shape:
shapes are aligned from the trailing axis; every aligned source dimension must
equal the target dimension or be 1, and the source may not have more axes. -/
def canBroadcast (src tgt : List Nat) : Bool :=
  decide (src.length ≤ tgt.length) &&
    (List.zip src (tgt.drop (tgt.length - src.length))).all (fun p => p.1 == p.2 || p.1 == 1)

/-- Read a source array at a coordinate of the (broadcast) target space:
leading extra target axes are dropped and size-1 source axes are pinned to 0. -/
def broadcastGet {α : Type} (src : NArr α) (c : List Nat) : α :=
  src.get ((List.zip src.shape (c.drop (c.length - src.shape.length))).map
    (fun p => if p.1 = 1 then 0 else p.2))

/-- Model of `cartesian_temporal_downsampling(hr, sampling_factor, offset)` from
`temporal_downsampling.py`: assert 4D, assert `sampling_factor >= 1`, then
return `hr[offset::sampling_factor, :, :, :]`. -/
def cartesian_temporal_downsampling {α : Type} (hr : NArr α)
    (sampling_factor : Nat) (offset : Nat := 0) : Option (NArr α) :=
  match hr.shape with
  | [t, x, y, z] =>
    if sampling_factor ≥ 1 then
      some { shape := [(t - offset + (sampling_factor - 1)) / sampling_factor, x, y, z],
             get := fun c =>
               hr.get (match c with
                 | k :: rest => (offset + k * sampling_factor) :: rest
                 | [] => []) }
    else none
  | _ => none

/-- One iteration of the inner loop of `temporal_averaging`: resolve the raw
integer frame index `i` the way the source does (`if i >= T: i = i % T`,
then Python negative indexing on `hr_avg[i]`, an `IndexError` below `-T`),
and perform `hr_avg += np.asarray(hr_avg[i])` — note the source reads the
accumulator `hr_avg`, not the input `hr`. -/
def temporalAveragingStep {α : Type} [DivisionRing α] (T : Nat)
    (acc : NArr α) (i : Int) : Option (NArr α) :=
  let i' : Int := if i ≥ (T : Int) then i % (T : Int) else i
  let idx : Option Nat :=
    if i' ≥ 0 then some i'.toNat
    else if i' ≥ -(T : Int) then some ((T : Int) + i').toNat
    else none
  idx.map (fun k =>
    { shape := acc.shape, get := fun c => acc.get c + acc.get (k :: c.tail) })

/-- Model of `temporal_averaging(hr, radius)` from `temporal_downsampling.py`:
assert 4D, assert `radius >= 1`, start from `np.zeros_like(hr)`, loop `t` over
the frames and `i` over `range(t - radius//2, t + radius//2 + 1)`, add
`hr_avg[i]` (a slice of the accumulator itself) to the whole accumulator,
and finally divide by `radius`. -/
def temporal_averaging {α : Type} [DivisionRing α] (hr : NArr α)
    (radius : Nat) : Option (NArr α) :=
  match hr.shape with
  | [t, x, y, z] =>
    if radius ≥ 1 then
      let T := t
      let init : NArr α := { shape := [t, x, y, z], get := fun _ => 0 }
      let pairs : List Int := (List.range T).flatMap (fun tt =>
        (List.range (radius / 2 + radius / 2 + 1)).map
          (fun (j : Nat) => (tt : Int) - ((radius / 2 : Nat) : Int) + (j : Int)))
      (pairs.foldlM (temporalAveragingStep T) init).map
        (fun arr => { shape := arr.shape, get := fun c => arr.get c / (radius : α) })
    else none
  | _ => none

/-- Model of `create_temporal_mask(mask, n_frames)` from `evaluate_utils.py`:
assert the static mask is 3D, then
`np.repeat(np.expand_dims(mask, 0), n_frames, axis=0)`, i.e. an array of
shape `(n_frames,) + mask.shape` whose every temporal frame is a copy of
the mask. -/
def create_temporal_mask {α : Type} (mask : NArr α) (n_frames : Nat) :
    Option (NArr α) :=
  if mask.shape.length = 3 then
    some { shape := n_frames :: mask.shape, get := fun c => mask.get c.tail }
  else none

/-- One iteration of the odd-frame loop of `temporal_linear_interpolation_np`:
`interpolate[1+t] = (interpolate[t] + interpolate[1+t+1]) / 2`. -/
def linearInterpStep {α : Type} [DivisionRing α] (arr : NArr α) (t0 : Nat) : NArr α :=
  { shape := arr.shape,
    get := fun c => match c with
      | s :: rest =>
        if s = t0 + 1 then (arr.get (t0 :: rest) + arr.get ((t0 + 2) :: rest)) / 2
        else arr.get (s :: rest)
      | [] => arr.get [] }

/-- Model of `temporal_linear_interpolation_np(lr, hr_shape)` from `evaluate_utils.py`:
unpack `T, x, y, z = hr_shape`, allocate `interpolate = np.zeros((T,x,y,z))`,
assign `interpolate[::2, :, :, :] = lr` (numpy broadcast of `lr` into the
even-frame slice; `none` models the broadcast `ValueError`), then for
`t in range(0, T-2, 2)` set frame `t+1` to the mean of frames `t` and `t+2`.
There is no dimensionality assertion on `lr` anywhere in this routine. -/
def temporal_linear_interpolation_np {α : Type} [DivisionRing α]
    (lr : NArr α) (hr_shape : List Nat) : Option (NArr α) :=
  match hr_shape with
  | [t, x, y, z] =>
    if canBroadcast lr.shape [(t + 1) / 2, x, y, z] then
      let afterEven : NArr α :=
        { shape := [t, x, y, z],
          get := fun c => match c with
            | s :: rest =>
              if s % 2 = 0 then broadcastGet lr (s / 2 :: rest) else 0
            | [] => 0 }
      let steps := (List.range ((t - 2 + 1) / 2)).map (· * 2)
      some (steps.foldl linearInterpStep afterEven)
    else none
  | _ => none

/-- Model of `np.arange(start, stop, step)` over exact reals: the element at
position `i` is `start + i*step`, and the length is `ceil((stop-start)/step)`
clamped at 0 (numpy's length formula, exact since no rounding occurs here). -/
noncomputable def arangeR (start stop step : ℝ) : List ℝ :=
  (List.range (⌈(stop - start) / step⌉).toNat).map
    (fun (i : Nat) => start + (i : ℝ) * step)

/-- A uniformly spaced time grid `[s, s+dt, ..., s+(N-1)*dt]`; this is how the
repository builds `t_range` (`np.linspace(0, 1, frames)` and its strided
subsamples), and the object the claims quantify over. -/
noncomputable def uniformGrid (s dt : ℝ) (N : Nat) : List ℝ :=
  (List.range N).map (fun (i : Nat) => s + (i : ℝ) * dt)

/-- Model of the inner `smoothed_box_fct(t, t0, w, sigma)` of
`temporal_smoothing_box_function_toeger`: the difference of two logistic
sigmoids, with `alpha = 1` (the trapezoid-integral normalization in the
source is commented out). -/
noncomputable def smoothed_box_fct (t t0 w sigma : ℝ) : ℝ :=
  1 / (1 + Real.exp (-(t - (t0 - w / 2)) / sigma)) -
    1 / (1 + Real.exp (-(t - (t0 + w / 2)) / sigma))

/-- Model of `extended_boundaries_left` in
`temporal_smoothing_box_function_toeger`:
`np.arange(start_t, start_t - (len_t/4), -dt)[::-1]` followed by dropping the
last element (`[:-1]`, which removes `start_t` itself after the reversal). -/
noncomputable def extendedBoundariesLeft (t_range : List ℝ) : List ℝ :=
  let start_t := t_range.headD 0
  let end_t := t_range.getLastD 0
  let len_t := end_t - start_t
  let dt := t_range.getD 1 0 - t_range.getD 0 0
  ((arangeR start_t (start_t - len_t / 4) (-dt)).reverse).dropLast

/-- Model of `extended_boundaries_right` in
`temporal_smoothing_box_function_toeger`:
`np.arange(end_t + dt, end_t + (len_t/4), dt)`. -/
noncomputable def extendedBoundariesRight (t_range : List ℝ) : List ℝ :=
  let start_t := t_range.headD 0
  let end_t := t_range.getLastD 0
  let len_t := end_t - start_t
  let dt := t_range.getD 1 0 - t_range.getD 0 0
  arangeR (end_t + dt) (end_t + len_t / 4) dt

/-- Model of the explicit length reconciliation of the two boundary
extensions: drop the last element of the right extension if it is longer,
drop the first element of the left extension if the left is longer. -/
noncomputable def reconciledBoundaries (t_range : List ℝ) : List ℝ × List ℝ :=
  let l := extendedBoundariesLeft t_range
  let r := extendedBoundariesRight t_range
  if r.length > l.length then (l, r.dropLast)
  else if r.length < l.length then (l.tail, r)
  else (l, r)

/-- Model of the numpy slice `a[-k:]` on a 1-D array: the last `k` elements,
except that `a[-0:]` is the whole array (the `-0` pitfall). -/
def npTail {α : Type} (a : List α) (k : Nat) : List α :=
  if k = 0 then a else a.drop (a.length - k)

/-- Model of in-place `target += rhs` on 1-D numpy arrays: the right-hand side
must have the target's length, or length 1 (which broadcasts); any other
length raises a broadcast `ValueError`, modelled as `none`. -/
def npAddInto (target rhs : List ℝ) : Option (List ℝ) :=
  if rhs.length = target.length then some (List.zipWith (· + ·) target rhs)
  else if rhs.length = 1 then some (target.map (· + rhs.headD 0))
  else none

/-- Model of `p[:k] += rhs` on a 1-D numpy array `p`. -/
def sliceAddFront (p : List ℝ) (k : Nat) (rhs : List ℝ) : Option (List ℝ) :=
  (npAddInto (p.take k) rhs).map (· ++ p.drop k)

/-- Model of `p[-k:] += rhs` on a 1-D numpy array `p` (with the `-0` pitfall
of `npTail`). -/
def sliceAddBack (p : List ℝ) (k : Nat) (rhs : List ℝ) : Option (List ℝ) :=
  (npAddInto (npTail p k) rhs).map
    (fun u => (if k = 0 then [] else p.take (p.length - k)) ++ u)

/-- Model of the per-`t0` kernel evaluation and normalization inside
`temporal_smoothing_box_function_toeger`: evaluate `smoothed_box_fct` over
the extended axis `left ++ t_range ++ right` with width `w = dt`, then divide
by the sum of the discrete weights. -/
noncomputable def normalizedWeighting (t_range : List ℝ) (sigma t0 : ℝ) : List ℝ :=
  let dt := t_range.getD 1 0 - t_range.getD 0 0
  let lr := reconciledBoundaries t_range
  let t_ext := lr.1 ++ t_range ++ lr.2
  let weighting := t_ext.map (fun t => smoothed_box_fct t t0 dt sigma)
  weighting.map (· / weighting.sum)

/-- Model of the periodic fold-back inside
`temporal_smoothing_box_function_toeger`: take the middle slice
`weighting[len(left) : len(left)+len(t_range)]`, then
`periodic[:len(right)] += weighting[-len(right):]` and
`periodic[-len(left):] += weighting[:len(left)]`. The numpy originals operate
on views, but for extension lengths at most `len(t_range)` every read slice is
disjoint from every previously written slice, so the by-value semantics used
here agrees with numpy; a failing broadcast (the `-0` pitfall when an
extension is empty) is `none`. -/
noncomputable def periodicWeighting (t_range : List ℝ) (sigma t0 : ℝ) : Option (List ℝ) :=
  let w := normalizedWeighting t_range sigma t0
  let m_l := (reconciledBoundaries t_range).1.length
  let m_r := (reconciledBoundaries t_range).2.length
  let mid := (w.drop m_l).take t_range.length
  (sliceAddFront mid m_r (npTail w m_r)).bind
    (fun p => sliceAddBack p m_l (w.take m_l))

/-- Model of `temporal_smoothing_box_function_toeger(hr, t_range, sigma)` from
`temporal_downsampling.py`: assert 4D, then write frame `i` of the output as
the weighted sum of all input frames under the periodic weight vector for
`t0 = t_range[i]`; any `none` from a weight fold aborts. The weighted sum
`np.sum(hr * pw[:, None, None, None], axis=0)` needs the weight vector length
to match the frame count (degenerate length-1 numpy broadcasts are not taken,
they never occur on the grids the claims range over). -/
noncomputable def temporal_smoothing_box_function_toeger (hr : NArr ℝ)
    (t_range : List ℝ) (sigma : ℝ) : Option (NArr ℝ) :=
  match hr.shape with
  | [t, x, y, z] =>
    (t_range.mapM (periodicWeighting t_range sigma)).bind (fun ws =>
      if (ws.all (fun pw => pw.length == t)) && decide (t_range.length ≤ t) then
        some { shape := [t, x, y, z],
               get := fun c => match c with
                 | i :: rest =>
                   if i < t_range.length then
                     ((List.range t).map
                       (fun τ => (ws.getD i []).getD τ 0 * hr.get (τ :: rest))).sum
                   else 0
                 | [] => 0 }
      else none)
  | _ => none

/-- Model of numpy's `np.round` (round half to even) on an exact real. -/
noncomputable def npRound (x : ℝ) : ℤ :=
  if Int.fract x = 1 / 2 then (if 2 ∣ ⌊x⌋ then ⌊x⌋ else ⌊x⌋ + 1) else round x

/-- Model of `diff_speed` in `calculate_relative_error_np`:
`np.sqrt(np.square(u_pred-u_hi) + np.square(v_pred-v_hi) + np.square(w_pred-w_hi))`. -/
noncomputable def diffSpeed (up vp wp uh vh wh : ℝ) : ℝ :=
  Real.sqrt ((up - uh) ^ 2 + (vp - vh) ^ 2 + (wp - wh) ^ 2)

/-- Model of `actual_speed` in `calculate_relative_error_np`:
`np.sqrt(np.square(u_hi) + np.square(v_hi) + np.square(w_hi))`. -/
noncomputable def actualSpeed (uh vh wh : ℝ) : ℝ :=
  Real.sqrt (uh ^ 2 + vh ^ 2 + wh ^ 2)

/-- Model of `relative_speed_loss` in `calculate_relative_error_np`:
`diff_speed / (actual_speed + epsilon)` with `epsilon = 1e-5`. -/
noncomputable def relativeSpeedLoss (up vp wp uh vh wh : ℝ) : ℝ :=
  diffSpeed up vp wp uh vh wh / (actualSpeed uh vh wh + 1e-5)

/-- Model of `corrected_speed_loss` before rounding in
`calculate_relative_error_np`: clip the relative loss to `[0, 1]`
(`np.clip(x, 0., 1.) = min(max(x, 0), 1)`), then
`np.where(actual_speed != 0, relative, diff_speed)`. -/
noncomputable def correctedSpeedLoss (up vp wp uh vh wh : ℝ) : ℝ :=
  if actualSpeed uh vh wh ≠ 0 then min 1 (max 0 (relativeSpeedLoss up vp wp uh vh wh))
  else diffSpeed up vp wp uh vh wh

/-- Model of the rounded loss `np.round(corrected * 1e4) / 1e4`. -/
noncomputable def roundedSpeedLoss (up vp wp uh vh wh : ℝ) : ℝ :=
  (npRound (correctedSpeedLoss up vp wp uh vh wh * 1e4) : ℝ) / 1e4

/-- Model of `calculate_relative_error_np` from `evaluate_utils.py` for a 4D
prediction and a 3D static binary mask: per frame `t`, sum the masked rounded
loss over the spatial axes and divide by the total mask sum plus one, then
scale to a percentage. -/
noncomputable def calculate_relative_error_np (T X Y Z : Nat)
    (u_pred v_pred w_pred u_hi v_hi w_hi : Fin T → Fin X → Fin Y → Fin Z → ℝ)
    (binary_mask : Fin X → Fin Y → Fin Z → ℝ) : Fin T → ℝ :=
  fun t =>
    (∑ x, ∑ y, ∑ z,
      (if binary_mask x y z = 1 then
        roundedSpeedLoss (u_pred t x y z) (v_pred t x y z) (w_pred t x y z)
          (u_hi t x y z) (v_hi t x y z) (w_hi t x y z)
       else 0)) /
    ((∑ x, ∑ y, ∑ z, binary_mask x y z) + 1) * 100

/-- Model of the denormalize-and-threshold step of
`predictor_temporal_all_axis.py`: `v = v * venc`, then zero every value whose
absolute value is below `velocity_per_px`. -/
noncomputable def denormThreshold (venc thr v : ℝ) : ℝ :=
  if |v * venc| < thr then 0 else v * venc

/-- The spatial coordinate a scan axis fixes at the row index:
axis 0 fixes `x` (the second index of the `(t,x,y,z)` volume),
axis 1 fixes `y`, axis 2 fixes `z`. -/
def coordSel (a x y z : Nat) : Nat :=
  if a = 0 then x else if a = 1 then y else z

/-- Model of the per-row write of `predictor_temporal_all_axis.py`:
`volume[i, :, nrow, :, :] = v` for axis 0, `volume[i, :, :, nrow, :] = v` for
axis 1, `volume[i, :, :, :, nrow] = v` for axis 2. -/
def writeRowAxis (a nrow : Nat) (row : Nat → Nat → Nat → ℝ)
    (vol : Nat → Nat → Nat → Nat → ℝ) : Nat → Nat → Nat → Nat → ℝ :=
  fun t x y z =>
    if a = 0 then (if x = nrow then row t y z else vol t x y z)
    else if a = 1 then (if y = nrow then row t x z else vol t x y z)
    else if a = 2 then (if z = nrow then row t x y else vol t x y z)
    else vol t x y z

/-- Model of one scan-axis pass of `predictor_temporal_all_axis.py`:
start from `volume = np.zeros(...)` and, for each row, write the
denormalized and thresholded per-row reconstruction `rowRec nrow` into the
index pattern of axis `a`. `rowRec` is the output of the
sampler → network → stitcher pipeline for that row; that pipeline lives
outside this repository slice and enters the model as an opaque argument. -/
noncomputable def axisVolume (a nrows : Nat) (venc thr : ℝ)
    (rowRec : Nat → Nat → Nat → Nat → ℝ) : Nat → Nat → Nat → Nat → ℝ :=
  (List.range nrows).foldl
    (fun vol nrow =>
      writeRowAxis a nrow (fun t p q => denormThreshold venc thr (rowRec nrow t p q)) vol)
    (fun _ _ _ _ => 0)

/-- Model of the live cross-axis accumulation of
`predictor_temporal_all_axis.py` (lines 173-175): `u_combined` starts at
zeros and each axis pass adds its full volume (`u_combined += volume[0]`). -/
noncomputable def combinedAccumulated (nrows : Nat → Nat) (venc thr : ℝ)
    (rowRec : Nat → Nat → Nat → Nat → Nat → ℝ) : Nat → Nat → Nat → Nat → ℝ :=
  [0, 1, 2].foldl
    (fun acc a => fun t x y z =>
      acc t x y z + axisVolume a (nrows a) venc thr (rowRec a) t x y z)
    (fun _ _ _ _ => 0)

/-- The expression the `save_to_h5` calls at lines 182-184 of
`predictor_temporal_all_axis.py` would write: `u_combined / len(axis)` with
`axis = [0, 1, 2]`. In the source these lines are dead code: they sit after
the unconditional `exit()` at line 180. -/
noncomputable def combinedSaveExpression (nrows : Nat → Nat) (venc thr : ℝ)
    (rowRec : Nat → Nat → Nat → Nat → Nat → ℝ) : Nat → Nat → Nat → Nat → ℝ :=
  fun t x y z => combinedAccumulated nrows venc thr rowRec t x y z / 3

/-- Model of the combined output `predictor_temporal_all_axis.py` actually
produces. After the axis loop the script prints a reminder that the exit is
temporary (line 179: Delete extit fct after testing) and then calls `exit()`
unconditionally at line 180, terminating the process before the division by
`len(axis)` and the `save_to_h5` calls at lines 182-184 are reached — for
every dataset and every row count, so no combined output is ever saved. The
arguments record the data the terminated run discards. -/
def producedCombinedOutput (_nrows : Nat → Nat) (_venc _thr : ℝ)
    (_rowRec : Nat → Nat → Nat → Nat → Nat → ℝ) :
    Option (Nat → Nat → Nat → Nat → ℝ) :=
  none

/-- A 6-frame 4D sequence whose frame `t` holds the constant value `t`. -/
def hr6 : NArr ℚ :=
  { shape := [6, 1, 1, 1], get := fun c => (c.headD 0 : ℚ) }

/-- The 4-frame sequence `[A,B,C,D] = [1,2,3,4]` of the averaging scenario. -/
def hrABCD : NArr ℚ :=
  { shape := [4, 1, 1, 1], get := fun c => (c.headD 0 : ℚ) + 1 }

/-- A single-frame 4D array. -/
def oneFrame4 : NArr ℚ :=
  { shape := [1, 1, 1, 1], get := fun _ => 5 }

/-- A 2-frame 4D low-resolution input with frame values 10 and 11. -/
def lrTwoFrames : NArr ℚ :=
  { shape := [2, 1, 1, 1], get := fun c => (c.headD 0 : ℚ) + 10 }

/-- A 3D (not 4D) array, used to probe the dimensionality assertions. -/
def arr3d : NArr ℚ :=
  { shape := [1, 1, 1], get := fun _ => 7 }

/-- Claim C4: for every 4D array and every sampling factor at least 1,
`cartesian_temporal_downsampling` succeeds and returns the stride subsequence
`hr[offset + k*sampling_factor]` (the Python slice length included), leaving
the three spatial axes untouched. -/
theorem cartesian_temporal_downsampling_spec {α : Type} (hr : NArr α)
    (t x y z n off : Nat) (hsh : hr.shape = [t, x, y, z]) (hn : 1 ≤ n) :
    ∃ r, cartesian_temporal_downsampling hr n off = some r ∧
      r.shape = [(t - off + (n - 1)) / n, x, y, z] ∧
      ∀ k i j l, k < (t - off + (n - 1)) / n →
        r.get [k, i, j, l] = hr.get [off + k * n, i, j, l] := by
  simp only [cartesian_temporal_downsampling, hsh, ge_iff_le, hn, if_true]
  exact ⟨_, rfl, rfl, fun k i j l _ => rfl⟩

/-- Witness for C4: the concrete 6-frame scenario with `sampling_factor = 2`
and `offset = 1` keeps exactly frames 1, 3, 5. -/
theorem cartesian_temporal_downsampling_spec_witness :
    (cartesian_temporal_downsampling hr6 2 1).map
      (fun r => (r.shape, r.get [0, 0, 0, 0], r.get [1, 0, 0, 0], r.get [2, 0, 0, 0])) =
      some ([3, 1, 1, 1], 1, 3, 5) := by
  obtain ⟨r, hsome, hshape, hget⟩ :=
    cartesian_temporal_downsampling_spec hr6 6 1 1 1 2 1 rfl (by norm_num)
  rw [hsome, Option.map_some']
  have h0 := hget 0 0 0 0 (by norm_num)
  have h1 := hget 1 0 0 0 (by norm_num)
  have h2 := hget 2 0 0 0 (by norm_num)
  simp only [h0, h1, h2, hshape]
  norm_num [hr6]

/-- Claim C10: `create_temporal_mask` on a 3D static mask returns an array of
shape `(n_frames,) + mask.shape` whose every temporal frame equals the mask
(per-frame-identical values; in this pure model a frame cannot alias another),
and any mask that is not exactly 3-dimensional is rejected. -/
theorem create_temporal_mask_spec {α : Type} (n : Nat) (_hn : 1 ≤ n) :
    (∀ (mask : NArr α) (a b c : Nat), mask.shape = [a, b, c] →
      ∃ r, create_temporal_mask mask n = some r ∧
        r.shape = n :: mask.shape ∧
        ∀ t cc, t < n → r.get (t :: cc) = mask.get cc) ∧
    (∀ mask : NArr α, mask.shape.length ≠ 3 → create_temporal_mask mask n = none) := by
  constructor
  · intro mask a b c h
    simp only [create_temporal_mask, h, List.length_cons, List.length_nil, if_true]
    exact ⟨_, rfl, rfl, fun t cc _ => rfl⟩
  · intro mask h
    simp [create_temporal_mask, h]

/-- Witness for C10: broadcasting the concrete 3D array to 2 frames copies its
value into frame 1. -/
theorem create_temporal_mask_spec_witness :
    (create_temporal_mask arr3d 2).map (fun r => (r.shape, r.get [1, 0, 0, 0])) =
      some ([2, 1, 1, 1], arr3d.get [0, 0, 0]) := by
  obtain ⟨r, hsome, hshape, hget⟩ :=
    (create_temporal_mask_spec (α := ℚ) 2 (by norm_num)).1 arr3d 1 1 1 rfl
  rw [hsome, Option.map_some']
  rw [hget 1 [0, 0, 0] (by norm_num), hshape]
  norm_num [arr3d]

/-- Every inner-loop step of `temporal_averaging` succeeds when the raw index
is at least `-T`, and adds some slice of the accumulator to the whole
accumulator. -/
theorem temporalAveragingStep_some {α : Type} [DivisionRing α] (T : Nat)
    (acc : NArr α) (i : Int) (h : -(T : Int) ≤ i) :
    ∃ k, temporalAveragingStep T acc i =
      some { shape := acc.shape, get := fun c => acc.get c + acc.get (k :: c.tail) } := by
  simp only [temporalAveragingStep]
  by_cases h1 : i ≥ (T : Int)
  · have hmod : i % (T : Int) ≥ 0 := by
      rcases eq_or_ne (T : Int) 0 with hT | hT
      · rw [hT, Int.emod_zero]; omega
      · exact Int.emod_nonneg i hT
    rw [if_pos h1, if_pos hmod]
    exact ⟨_, rfl⟩
  · rw [if_neg h1]
    by_cases h2 : i ≥ 0
    · rw [if_pos h2]
      exact ⟨_, rfl⟩
    · rw [if_neg h2, if_pos (by omega : i ≥ -(T : Int))]
      exact ⟨_, rfl⟩

/-- Folding the averaging step over in-range indices succeeds and preserves
the all-zero accumulator. -/
theorem averaging_foldlM_zero {α : Type} [DivisionRing α] (T : Nat)
    (l : List Int) (hl : ∀ i ∈ l, -(T : Int) ≤ i) (acc : NArr α)
    (hz : ∀ c, acc.get c = 0) :
    ∃ r, l.foldlM (temporalAveragingStep T) acc = some r ∧
      r.shape = acc.shape ∧ ∀ c, r.get c = 0 := by
  induction l generalizing acc with
  | nil => exact ⟨acc, rfl, rfl, hz⟩
  | cons i tl ih =>
    obtain ⟨k, hk⟩ := temporalAveragingStep_some T acc i (hl i (by simp))
    obtain ⟨r, hr, hsh, hrz⟩ := ih (fun j hj => hl j (by simp [hj]))
      { shape := acc.shape, get := fun c => acc.get c + acc.get (k :: c.tail) }
      (fun c => by simp [hz])
    exact ⟨r, by simp [List.foldlM_cons, hk, hr], hsh, hrz⟩

/-- Shared helper: whenever every resolved index is in range
(`radius/2 ≤ t`), `temporal_averaging` succeeds and returns an array of the
input's shape that is identically zero — the accumulator only ever adds
slices of itself. -/
theorem temporal_averaging_zero_aux {α : Type} [DivisionRing α] (hr : NArr α)
    (t x y z radius : Nat) (hsh : hr.shape = [t, x, y, z]) (h1 : 1 ≤ radius)
    (h2 : radius / 2 ≤ t) :
    ∃ r, temporal_averaging hr radius = some r ∧ r.shape = [t, x, y, z] ∧
      ∀ c, r.get c = 0 := by
  have hb : ∀ i ∈ (List.range t).flatMap (fun tt =>
      (List.range (radius / 2 + radius / 2 + 1)).map
        (fun (j : Nat) => (tt : Int) - ((radius / 2 : Nat) : Int) + (j : Int))), -(t : Int) ≤ i := by
    intro i hi
    simp only [List.mem_flatMap, List.mem_map, List.mem_range] at hi
    obtain ⟨tt, htt, j, hj, heq⟩ := hi
    omega
  obtain ⟨r, hfold, hrsh, hz⟩ := averaging_foldlM_zero t _ hb
    { shape := [t, x, y, z], get := fun _ => (0 : α) } (fun _ => rfl)
  simp only [temporal_averaging, hsh, ge_iff_le, h1, if_true]
  rw [hfold]
  exact ⟨_, rfl, by simpa using hrsh, fun c => by simp [hz]⟩

/-- Claim C2 (failing input): on the 4-frame scenario `[A,B,C,D] = [1,2,3,4]`
with radius 3, the spec demands output frame 0 `= mean(D,A,B) = 7/3`, but the
code's accumulator only ever adds slices of itself, so frame 0 comes out 0. -/
theorem temporal_averaging_scenario_gives_zero_not_mean :
    (temporal_averaging hrABCD 3).map (fun r => r.get [0, 0, 0, 0]) = some 0 ∧
      ((4 : ℚ) + 1 + 2) / 3 ≠ 0 := by
  constructor
  · obtain ⟨r, hsome, _, hz⟩ :=
      temporal_averaging_zero_aux hrABCD 4 1 1 1 3 rfl (by norm_num) (by norm_num)
    rw [hsome, Option.map_some']
    simp [hz]
  · norm_num

/-- Claim C3 (counterexample): with radius 4 on a single-frame input the raw
index hits `-2`, Python negative indexing falls below `-T`, and
`temporal_averaging` raises an `IndexError` instead of returning a zero array
— so the claim does not hold for every radius at least 1. -/
theorem temporal_averaging_large_radius_fails :
    1 ≤ 4 ∧ oneFrame4.shape = [1, 1, 1, 1] ∧
      (temporal_averaging oneFrame4 4).isSome = false := by
  exact ⟨by norm_num, rfl, by decide⟩

/-- Claim C3 (amended): for every 4D input and every radius at least 1 with
`radius/2 ≤ T` (so that every periodic index stays in Python's indexable
range), `temporal_averaging` returns an array of the input's shape with every
entry equal to zero: the accumulator is initialized to zeros and the loop only
ever adds slices of the accumulator itself, so the input data has no
influence on the result. -/
theorem temporal_averaging_returns_zero {α : Type} [DivisionRing α]
    (hr : NArr α) (t x y z radius : Nat) (hsh : hr.shape = [t, x, y, z])
    (h1 : 1 ≤ radius) (h2 : radius / 2 ≤ t) :
    ∃ r, temporal_averaging hr radius = some r ∧ r.shape = [t, x, y, z] ∧
      ∀ c, r.get c = 0 :=
  temporal_averaging_zero_aux hr t x y z radius hsh h1 h2

/-- Witness for C3 (amended): the 4-frame input with radius 3 yields zero at a
sample entry, and the shape is preserved. -/
theorem temporal_averaging_returns_zero_witness :
    (temporal_averaging hrABCD 3).map (fun r => (r.shape, r.get [2, 0, 0, 0])) =
      some ([4, 1, 1, 1], 0) := by
  obtain ⟨r, hsome, hsh, hz⟩ :=
    temporal_averaging_returns_zero hrABCD 4 1 1 1 3 rfl (by norm_num) (by norm_num)
  rw [hsome, Option.map_some']
  simp [hsh, hz]

/-- Reading a 4D source through a broadcast at an in-range coordinate is a
plain lookup. -/
theorem broadcastGet_valid {α : Type} (lr : NArr α) (a b c d k i j l : Nat)
    (hsh : lr.shape = [a, b, c, d]) (hk : k < a) (hi : i < b) (hj : j < c)
    (hl : l < d) : broadcastGet lr [k, i, j, l] = lr.get [k, i, j, l] := by
  have e1 : (if a = 1 then 0 else k) = k := by split <;> omega
  have e2 : (if b = 1 then 0 else i) = i := by split <;> omega
  have e3 : (if c = 1 then 0 else j) = j := by split <;> omega
  have e4 : (if d = 1 then 0 else l) = l := by split <;> omega
  simp [broadcastGet, hsh, e1, e2, e3, e4]

/-- A shape always broadcasts onto itself. -/
theorem canBroadcast_self (s : List Nat) : canBroadcast s s = true := by
  have h : ∀ r : List Nat, (List.zip r r).all (fun p => p.1 == p.2 || p.1 == 1) = true := by
    intro r
    induction r with
    | nil => rfl
    | cons a tl ih => simp [ih]
  simp [canBroadcast, h]

/-- The odd-frame loop of `temporal_linear_interpolation_np` preserves the
shape field. -/
theorem interp_foldl_shape {α : Type} [DivisionRing α] (l : List Nat) (E : NArr α) :
    (l.foldl linearInterpStep E).shape = E.shape := by
  induction l generalizing E with
  | nil => rfl
  | cons a tl ih => rw [List.foldl_cons, ih]; rfl

/-- Characterization of the odd-frame loop: after the `m` steps
`t = 0, 2, ..., 2m-2`, every odd frame below `2m+1` holds the mean of its even
neighbors in the initial array, and every other frame is untouched. -/
theorem interp_foldl_get {α : Type} [DivisionRing α] (E : NArr α) (m : Nat) :
    ∀ s rest, (((List.range m).map (· * 2)).foldl linearInterpStep E).get (s :: rest) =
      if s % 2 = 1 ∧ s < 2 * m + 1 then
        (E.get ((s - 1) :: rest) + E.get ((s + 1) :: rest)) / 2
      else E.get (s :: rest) := by
  induction m with
  | zero =>
    intro s rest
    have h0 : ¬(s % 2 = 1 ∧ s < 2 * 0 + 1) := by omega
    have h0' : ¬(s % 2 = 1 ∧ s = 0) := by omega
    simp [h0, h0']
  | succ m ih =>
    intro s rest
    rw [List.range_succ, List.map_append, List.foldl_append]
    simp only [List.map_cons, List.map_nil, List.foldl_cons, List.foldl_nil]
    by_cases hs : s = m * 2 + 1
    · have hodd : s % 2 = 1 ∧ s < 2 * (m + 1) + 1 := by omega
      have heven1 : ¬((m * 2) % 2 = 1 ∧ m * 2 < 2 * m + 1) := by omega
      have heven2 : ¬((m * 2 + 2) % 2 = 1 ∧ m * 2 + 2 < 2 * m + 1) := by omega
      simp only [linearInterpStep, hs, if_pos rfl, ih, heven1, heven2, if_neg,
        if_pos hodd]
      have h1 : m * 2 + 1 - 1 = m * 2 := by omega
      have h2 : m * 2 + 1 + 1 = m * 2 + 2 := by omega
      rw [h1, h2]
      simp only [if_true, if_false]
      rw [if_pos (by omega : (m * 2 + 1) % 2 = 1 ∧ m * 2 + 1 < 2 * (m + 1) + 1)]
    · simp only [linearInterpStep, if_neg hs, ih]
      have : (s % 2 = 1 ∧ s < 2 * m + 1) ↔ (s % 2 = 1 ∧ s < 2 * (m + 1) + 1) := by
        omega
      rw [if_congr this rfl rfl]

/-- Claim C6: with a target frame count twice the input's,
`temporal_linear_interpolation_np` keeps the input frames at even output
indices, sets each odd output frame `2k+1` below `T-1` to the mean of output
frames `2k` and `2k+2`, and leaves the final output frame at the
default-initialized value of the `np.zeros` output buffer (zero), which no
loop iteration ever assigns. -/
theorem temporal_linear_interpolation_np_spec {α : Type} [DivisionRing α]
    (lr : NArr α) (T0 x y z : Nat) (hsh : lr.shape = [T0, x, y, z])
    (hT : 1 ≤ T0) :
    ∃ r, temporal_linear_interpolation_np lr [2 * T0, x, y, z] = some r ∧
      r.shape = [2 * T0, x, y, z] ∧
      (∀ k i j l, k < T0 → i < x → j < y → l < z →
        r.get [2 * k, i, j, l] = lr.get [k, i, j, l]) ∧
      (∀ k i j l, k + 1 < T0 →
        r.get [2 * k + 1, i, j, l] =
          (r.get [2 * k, i, j, l] + r.get [2 * k + 2, i, j, l]) / 2) ∧
      (∀ i j l, r.get [2 * T0 - 1, i, j, l] = 0) := by
  have hdiv : (2 * T0 + 1) / 2 = T0 := by omega
  have hbc : canBroadcast lr.shape [(2 * T0 + 1) / 2, x, y, z] = true := by
    rw [hsh, hdiv]
    exact canBroadcast_self _
  have hsteps : 2 * T0 - 2 + 1 = 2 * (T0 - 1) + 1 := by omega
  have hsteps2 : (2 * (T0 - 1) + 1) / 2 = T0 - 1 := by omega
  simp only [temporal_linear_interpolation_np, hbc, if_true, hsteps, hsteps2]
  refine ⟨_, rfl, ?_, ?_, ?_, ?_⟩
  · rw [interp_foldl_shape]
  · intro k i j l hk hi hj hl
    rw [interp_foldl_get]
    rw [if_neg (by omega : ¬(2 * k % 2 = 1 ∧ 2 * k < 2 * (T0 - 1) + 1))]
    have hmod : 2 * k % 2 = 0 := by omega
    have hdiv2 : 2 * k / 2 = k := by omega
    simp only [hmod, if_pos, hdiv2]
    exact broadcastGet_valid lr T0 x y z k i j l hsh hk hi hj hl
  · intro k i j l hk
    rw [interp_foldl_get, interp_foldl_get, interp_foldl_get]
    rw [if_pos (by omega : (2 * k + 1) % 2 = 1 ∧ 2 * k + 1 < 2 * (T0 - 1) + 1)]
    rw [if_neg (by omega : ¬(2 * k % 2 = 1 ∧ 2 * k < 2 * (T0 - 1) + 1))]
    rw [if_neg (by omega : ¬((2 * k + 2) % 2 = 1 ∧ 2 * k + 2 < 2 * (T0 - 1) + 1))]
    have h1 : 2 * k + 1 - 1 = 2 * k := by omega
    have h2 : 2 * k + 1 + 1 = 2 * k + 2 := by omega
    rw [h1, h2]
  · intro i j l
    rw [interp_foldl_get]
    rw [if_neg (by omega : ¬((2 * T0 - 1) % 2 = 1 ∧ 2 * T0 - 1 < 2 * (T0 - 1) + 1))]
    have hmod : (2 * T0 - 1) % 2 = 1 := by omega
    simp only [hmod]
    norm_num

/-- Witness for C6: interpolating the 2-frame input `[10, 11]` to 4 frames
gives frames `10, 21/2, 11, 0`. -/
theorem temporal_linear_interpolation_np_spec_witness :
    (temporal_linear_interpolation_np lrTwoFrames [4, 1, 1, 1]).map
      (fun r => (r.shape, r.get [0, 0, 0, 0], r.get [2, 0, 0, 0],
        r.get [1, 0, 0, 0], r.get [3, 0, 0, 0])) =
      some ([4, 1, 1, 1], 10, 11, (10 + 11) / 2, 0) := by
  obtain ⟨r, hsome, hsh, hev, hodd, hlast⟩ :=
    temporal_linear_interpolation_np_spec lrTwoFrames 2 1 1 1 rfl (by norm_num)
  have h4 : (4 : Nat) = 2 * 2 := by norm_num
  rw [h4, hsome, Option.map_some']
  have he0 := hev 0 0 0 0 (by norm_num) (by norm_num) (by norm_num) (by norm_num)
  have he1 := hev 1 0 0 0 (by norm_num) (by norm_num) (by norm_num) (by norm_num)
  have ho0 := hodd 0 0 0 0 (by norm_num)
  have hl3 := hlast 0 0 0
  simp only [show 2 * 0 = 0 from rfl, show 2 * 0 + 1 = 1 from rfl,
    show 2 * 0 + 2 = 2 from rfl, show 2 * 1 = 2 from rfl,
    show 2 * 2 - 1 = 3 from rfl] at he0 he1 ho0 hl3
  rw [hsh, he0, he1, ho0, he0, he1, hl3]
  norm_num [lrTwoFrames]

/-- Claim C7 (counterexample): `temporal_linear_interpolation_np` accepts a
3-dimensional input without raising any assertion — the interpolation-based
baselines perform no dimensionality check. -/
theorem linear_interpolation_accepts_non_4d :
    arr3d.shape.length ≠ 4 ∧
      (temporal_linear_interpolation_np arr3d [2, 1, 1, 1]).isSome = true := by
  exact ⟨by decide, by decide⟩

/-- Claim C7 (amended): the stride-downsampling, windowed-averaging and
box-kernel smoothing routines raise an assertion failure on any input that is
not exactly 4-dimensional, and the routines taking a sampling factor or radius
(stride downsampling, windowed averaging) reject values below 1 before any
work; the interpolation-based upsampling baselines perform no such
dimensionality assertion. -/
theorem resampling_assertion_spec :
    (∀ (α : Type) (hr : NArr α) (n off : Nat), hr.shape.length ≠ 4 →
      cartesian_temporal_downsampling hr n off = none) ∧
    (∀ (α : Type) (hr : NArr α) (n off : Nat), n < 1 →
      cartesian_temporal_downsampling hr n off = none) ∧
    (∀ (α : Type) [DivisionRing α] (hr : NArr α) (radius : Nat),
      hr.shape.length ≠ 4 → temporal_averaging hr radius = none) ∧
    (∀ (α : Type) [DivisionRing α] (hr : NArr α) (radius : Nat), radius < 1 →
      temporal_averaging hr radius = none) ∧
    (∀ (hr : NArr ℝ) (t_range : List ℝ) (sigma : ℝ), hr.shape.length ≠ 4 →
      temporal_smoothing_box_function_toeger hr t_range sigma = none) := by
  refine ⟨?_, ?_, ?_, ?_, ?_⟩
  · intro α hr n off h
    rcases hsh : hr.shape with _ | ⟨a, _ | ⟨b, _ | ⟨c, _ | ⟨d, _ | ⟨e, rest⟩⟩⟩⟩⟩ <;>
      first
        | (exfalso; exact h (by rw [hsh]; rfl))
        | simp [cartesian_temporal_downsampling, hsh]
  · intro α hr n off h
    rcases hsh : hr.shape with _ | ⟨a, _ | ⟨b, _ | ⟨c, _ | ⟨d, _ | ⟨e, rest⟩⟩⟩⟩⟩ <;>
      simp [cartesian_temporal_downsampling, hsh, (by omega : ¬ n ≥ 1)] <;> omega
  · intro α inst hr radius h
    rcases hsh : hr.shape with _ | ⟨a, _ | ⟨b, _ | ⟨c, _ | ⟨d, _ | ⟨e, rest⟩⟩⟩⟩⟩ <;>
      first
        | (exfalso; exact h (by rw [hsh]; rfl))
        | simp [temporal_averaging, hsh]
  · intro α inst hr radius h
    rcases hsh : hr.shape with _ | ⟨a, _ | ⟨b, _ | ⟨c, _ | ⟨d, _ | ⟨e, rest⟩⟩⟩⟩⟩ <;>
      simp [temporal_averaging, hsh, (by omega : ¬ radius ≥ 1)] <;> omega
  · intro hr t_range sigma h
    rcases hsh : hr.shape with _ | ⟨a, _ | ⟨b, _ | ⟨c, _ | ⟨d, _ | ⟨e, rest⟩⟩⟩⟩⟩ <;>
      first
        | (exfalso; exact h (by rw [hsh]; rfl))
        | simp [temporal_smoothing_box_function_toeger, hsh]

/-- Witness for C7 (amended): concrete rejected calls for each asserting
routine — a 3D input and a zero factor/radius. -/
theorem resampling_assertion_spec_witness :
    cartesian_temporal_downsampling arr3d 2 0 = none ∧
    cartesian_temporal_downsampling hr6 0 0 = none ∧
    temporal_averaging arr3d 3 = none ∧
    temporal_averaging hr6 0 = none ∧
    temporal_smoothing_box_function_toeger
      { shape := [1, 1, 1], get := fun _ => 0 } [] 1 = none := by
  refine ⟨?_, ?_, ?_, ?_, ?_⟩
  · exact resampling_assertion_spec.1 ℚ arr3d 2 0 (by decide)
  · exact resampling_assertion_spec.2.1 ℚ hr6 0 0 (by decide)
  · exact resampling_assertion_spec.2.2.1 ℚ arr3d 3 (by decide)
  · exact resampling_assertion_spec.2.2.2.1 ℚ hr6 0 (by decide)
  · exact resampling_assertion_spec.2.2.2.2 _ [] 1 (by decide)

/-- Unfolding one row of an axis pass. -/
theorem axisVolume_succ (a n : Nat) (venc thr : ℝ)
    (rowRec : Nat → Nat → Nat → Nat → ℝ) :
    axisVolume a (n + 1) venc thr rowRec =
      writeRowAxis a n (fun t p q => denormThreshold venc thr (rowRec n t p q))
        (axisVolume a n venc thr rowRec) := by
  simp [axisVolume, List.range_succ]

/-- Characterization of an axis-0 pass: the voxel `(t,x,y,z)` holds the row-`x`
reconstruction (denormalized and thresholded) precisely when row `x` was
processed, and rows write mutually exclusive index patterns. -/
theorem axisVolume_zero_char (n : Nat) (venc thr : ℝ)
    (rowRec : Nat → Nat → Nat → Nat → ℝ) (t x y z : Nat) :
    axisVolume 0 n venc thr rowRec t x y z =
      if x < n then denormThreshold venc thr (rowRec x t y z) else 0 := by
  induction n with
  | zero => simp [axisVolume]
  | succ m ih =>
    rw [axisVolume_succ, writeRowAxis]
    by_cases hx : x = m
    · subst hx
      simp
    · simp only [if_pos rfl, if_neg hx, ih]
      have : (x < m) ↔ (x < m + 1) := by omega
      rw [if_congr this rfl rfl]
      simp

/-- Characterization of an axis-1 pass (the third volume index is the row). -/
theorem axisVolume_one_char (n : Nat) (venc thr : ℝ)
    (rowRec : Nat → Nat → Nat → Nat → ℝ) (t x y z : Nat) :
    axisVolume 1 n venc thr rowRec t x y z =
      if y < n then denormThreshold venc thr (rowRec y t x z) else 0 := by
  induction n with
  | zero => simp [axisVolume]
  | succ m ih =>
    rw [axisVolume_succ, writeRowAxis]
    by_cases hy : y = m
    · subst hy
      simp
    · simp only [if_neg (by omega : ¬(1 : Nat) = 0), if_pos rfl, if_neg hy, ih]
      have : (y < m) ↔ (y < m + 1) := by omega
      rw [if_congr this rfl rfl]
      simp

/-- Characterization of an axis-2 pass (the fourth volume index is the row). -/
theorem axisVolume_two_char (n : Nat) (venc thr : ℝ)
    (rowRec : Nat → Nat → Nat → Nat → ℝ) (t x y z : Nat) :
    axisVolume 2 n venc thr rowRec t x y z =
      if z < n then denormThreshold venc thr (rowRec z t x y) else 0 := by
  induction n with
  | zero => simp [axisVolume]
  | succ m ih =>
    rw [axisVolume_succ, writeRowAxis]
    by_cases hz : z = m
    · subst hz
      simp
    · simp only [if_neg (by omega : ¬(2 : Nat) = 0), if_neg (by omega : ¬(2 : Nat) = 1),
        if_pos rfl, if_neg hz, ih]
      have : (z < m) ↔ (z < m + 1) := by omega
      rw [if_congr this rfl rfl]
      simp

/-- Claim C8 (evaluation at the failing input): the per-row writes of each
scan-axis pass land in mutually exclusive index patterns of its accumulation
volume (axis 0 fixes the second volume index `x` at the row, axes 1 and 2 fix
`y` and `z`), and the expression of the save lines 182-184 is exactly the
element-wise sum of the three per-axis volumes divided by the number of axes
processed — but the unconditional `exit()` at line 180 terminates the script
before that division and those saves run, so the program never produces the
claimed final combined output. -/
theorem all_axis_predictor_exits_before_combining (n0 n1 n2 : Nat)
    (venc thr : ℝ) (rowRec : Nat → Nat → Nat → Nat → Nat → ℝ) :
    producedCombinedOutput
      (fun a => if a = 0 then n0 else if a = 1 then n1 else n2) venc thr rowRec
      = none ∧
    (∀ t x y z, axisVolume 0 n0 venc thr (rowRec 0) t x y z =
      if x < n0 then denormThreshold venc thr (rowRec 0 x t y z) else 0) ∧
    (∀ t x y z, axisVolume 1 n1 venc thr (rowRec 1) t x y z =
      if y < n1 then denormThreshold venc thr (rowRec 1 y t x z) else 0) ∧
    (∀ t x y z, axisVolume 2 n2 venc thr (rowRec 2) t x y z =
      if z < n2 then denormThreshold venc thr (rowRec 2 z t x y) else 0) ∧
    (∀ t x y z,
      combinedSaveExpression
        (fun a => if a = 0 then n0 else if a = 1 then n1 else n2)
        venc thr rowRec t x y z =
      (axisVolume 0 n0 venc thr (rowRec 0) t x y z +
       axisVolume 1 n1 venc thr (rowRec 1) t x y z +
       axisVolume 2 n2 venc thr (rowRec 2) t x y z) / 3) := by
  refine ⟨rfl,
    fun t x y z => axisVolume_zero_char n0 venc thr (rowRec 0) t x y z,
    fun t x y z => axisVolume_one_char n1 venc thr (rowRec 1) t x y z,
    fun t x y z => axisVolume_two_char n2 venc thr (rowRec 2) t x y z,
    fun t x y z => ?_⟩
  simp [combinedSaveExpression, combinedAccumulated]

/-- Claim C9: `calculate_relative_error_np` never divides by zero on the way
to its aggregated result: the per-voxel divisor `actual_speed + 1e-5` is
strictly positive, at every voxel with reference speed exactly zero the
relative loss is replaced by the absolute speed difference before masking and
aggregation, and the aggregation divisor (mask sum plus one) is strictly
positive for a nonnegative (binary) mask; the aggregate is exactly the masked
sum over these well-defined quantities. -/
theorem calculate_relative_error_np_no_nan (T X Y Z : Nat)
    (u_pred v_pred w_pred u_hi v_hi w_hi : Fin T → Fin X → Fin Y → Fin Z → ℝ)
    (binary_mask : Fin X → Fin Y → Fin Z → ℝ)
    (hmask : ∀ x y z, 0 ≤ binary_mask x y z) :
    (∀ t x y z, 0 < actualSpeed (u_hi t x y z) (v_hi t x y z) (w_hi t x y z) + 1e-5) ∧
    (∀ t x y z, actualSpeed (u_hi t x y z) (v_hi t x y z) (w_hi t x y z) = 0 →
      correctedSpeedLoss (u_pred t x y z) (v_pred t x y z) (w_pred t x y z)
          (u_hi t x y z) (v_hi t x y z) (w_hi t x y z) =
        diffSpeed (u_pred t x y z) (v_pred t x y z) (w_pred t x y z)
          (u_hi t x y z) (v_hi t x y z) (w_hi t x y z)) ∧
    (0 < (∑ x, ∑ y, ∑ z, binary_mask x y z) + 1) ∧
    (∀ t, calculate_relative_error_np T X Y Z u_pred v_pred w_pred u_hi v_hi w_hi
        binary_mask t =
      (∑ x, ∑ y, ∑ z,
        (if binary_mask x y z = 1 then
          roundedSpeedLoss (u_pred t x y z) (v_pred t x y z) (w_pred t x y z)
            (u_hi t x y z) (v_hi t x y z) (w_hi t x y z)
         else 0)) /
      ((∑ x, ∑ y, ∑ z, binary_mask x y z) + 1) * 100) := by
  refine ⟨?_, ?_, ?_, fun t => rfl⟩
  · intro t x y z
    have h := Real.sqrt_nonneg ((u_hi t x y z) ^ 2 + (v_hi t x y z) ^ 2 + (w_hi t x y z) ^ 2)
    have : (0 : ℝ) < 1e-5 := by norm_num
    unfold actualSpeed
    linarith
  · intro t x y z h
    unfold correctedSpeedLoss
    rw [if_neg]
    simp [h]
  · have hsum : 0 ≤ ∑ x, ∑ y, ∑ z, binary_mask x y z := by
      refine Finset.sum_nonneg fun x _ => ?_
      refine Finset.sum_nonneg fun y _ => ?_
      exact Finset.sum_nonneg fun z _ => hmask x y z
    linarith

/-- Witness for C9: at a single all-zero voxel with mask value 1 the
aggregation divisor is positive and the zero-speed substitution applies. -/
theorem calculate_relative_error_np_no_nan_witness :
    (0 : ℝ) ≤ 1 ∧
      (0 : ℝ) <
        (∑ _x : Fin 1, ∑ _y : Fin 1, ∑ _z : Fin 1, (1 : ℝ)) + 1 := by
  refine ⟨by norm_num, ?_⟩
  exact (calculate_relative_error_np_no_nan 1 1 1 1
    (fun _ _ _ _ => 0) (fun _ _ _ _ => 0) (fun _ _ _ _ => 0)
    (fun _ _ _ _ => 0) (fun _ _ _ _ => 0) (fun _ _ _ _ => 0)
    (fun _ _ _ => 1) (fun _ _ _ => by norm_num)).2.2.1

theorem uniformGrid_length (s dt : ℝ) (N : Nat) : (uniformGrid s dt N).length = N := by
  simp [uniformGrid]

theorem list_headD_eq_getD {α : Type} (l : List α) (d : α) : l.headD d = l.getD 0 d := by
  cases l <;> rfl

theorem uniformGrid_getD (s dt : ℝ) (N i : Nat) (h : i < N) :
    (uniformGrid s dt N).getD i 0 = s + i * dt := by
  unfold uniformGrid
  rw [List.getD_eq_getElem?_getD, List.getElem?_map, List.getElem?_range h]
  rfl

theorem uniformGrid_getLastD (s dt : ℝ) (N : Nat) (h : 1 ≤ N) :
    (uniformGrid s dt N).getLastD 0 = s + (N - 1 : Nat) * dt := by
  obtain ⟨M, rfl⟩ : ∃ M, N = M + 1 := ⟨N - 1, by omega⟩
  unfold uniformGrid
  rw [List.range_succ, List.map_append]
  simp [List.getLastD_concat]

theorem arangeR_length (start stop step : ℝ) :
    (arangeR start stop step).length = (⌈(stop - start) / step⌉).toNat := by
  simp [arangeR]

/-- The left boundary extension of a uniform grid has
`ceil((N-1)/4) - 1` elements. -/
theorem extLeft_length (s dt : ℝ) (N : Nat) (hdt : 0 < dt) (hN : 2 ≤ N) :
    (extendedBoundariesLeft (uniformGrid s dt N)).length =
      (⌈((N : ℝ) - 1) / 4⌉).toNat - 1 := by
  unfold extendedBoundariesLeft
  rw [list_headD_eq_getD, uniformGrid_getD s dt N 0 (by omega),
    uniformGrid_getD s dt N 1 (by omega), uniformGrid_getLastD s dt N (by omega)]
  simp only [List.length_dropLast, List.length_reverse, arangeR_length]
  have hdt' : dt ≠ 0 := ne_of_gt hdt
  have hc : ((N - 1 : Nat) : ℝ) = (N : ℝ) - 1 := by
    push_cast [Nat.cast_sub (by omega : 1 ≤ N)]
    ring
  congr 3
  rw [hc]
  push_cast
  field_simp
  ring

/-- The right boundary extension of a uniform grid has
`ceil((N-1)/4 - 1)` elements. -/
theorem extRight_length (s dt : ℝ) (N : Nat) (hdt : 0 < dt) (hN : 2 ≤ N) :
    (extendedBoundariesRight (uniformGrid s dt N)).length =
      (⌈((N : ℝ) - 1) / 4 - 1⌉).toNat := by
  unfold extendedBoundariesRight
  rw [list_headD_eq_getD, uniformGrid_getD s dt N 0 (by omega),
    uniformGrid_getD s dt N 1 (by omega), uniformGrid_getLastD s dt N (by omega)]
  simp only [arangeR_length]
  have hdt' : dt ≠ 0 := ne_of_gt hdt
  have hc : ((N - 1 : Nat) : ℝ) = (N : ℝ) - 1 := by
    push_cast [Nat.cast_sub (by omega : 1 ≤ N)]
    ring
  congr 2
  rw [hc]
  push_cast
  field_simp
  ring

/-- After the explicit length reconciliation both boundary extensions are
unchanged: on a uniform grid their raw lengths are already equal in exact
arithmetic (ceil of `x - 1` is one less than ceil of `x`). -/
theorem ext_lengths_eq (s dt : ℝ) (N : Nat) (hdt : 0 < dt) (hN : 2 ≤ N) :
    (extendedBoundariesLeft (uniformGrid s dt N)).length =
      (extendedBoundariesRight (uniformGrid s dt N)).length := by
  rw [extLeft_length s dt N hdt hN, extRight_length s dt N hdt hN]
  have h1 : ⌈((N : ℝ) - 1) / 4 - 1⌉ = ⌈((N : ℝ) - 1) / 4⌉ - 1 :=
    Int.ceil_sub_one (((N : ℝ) - 1) / 4)
  rw [h1]
  omega

/-- On a uniform grid the reconciliation keeps both extensions as they are. -/
theorem reconciledBoundaries_eq (s dt : ℝ) (N : Nat) (hdt : 0 < dt) (hN : 2 ≤ N) :
    reconciledBoundaries (uniformGrid s dt N) =
      (extendedBoundariesLeft (uniformGrid s dt N),
       extendedBoundariesRight (uniformGrid s dt N)) := by
  have h := ext_lengths_eq s dt N hdt hN
  simp [reconciledBoundaries, h]

/-- Claim C5: after the explicit length-reconciliation step the left and right
boundary-extension arrays of `temporal_smoothing_box_function_toeger` have
exactly equal length, for every uniformly spaced increasing time grid with at
least two samples. -/
theorem boundary_extension_lengths_equal (s dt : ℝ) (N : Nat)
    (hdt : 0 < dt) (hN : 2 ≤ N) :
    ((reconciledBoundaries (uniformGrid s dt N)).1).length =
      ((reconciledBoundaries (uniformGrid s dt N)).2).length := by
  rw [reconciledBoundaries_eq s dt N hdt hN]
  exact ext_lengths_eq s dt N hdt hN

/-- Witness for C5: the reconciled extensions of the 6-sample unit grid have
equal lengths. -/
theorem boundary_extension_lengths_equal_witness :
    (0 : ℝ) < 1 ∧ 2 ≤ 6 ∧
      ((reconciledBoundaries (uniformGrid 0 1 6)).1).length =
        ((reconciledBoundaries (uniformGrid 0 1 6)).2).length :=
  ⟨by norm_num, by norm_num, boundary_extension_lengths_equal 0 1 6 (by norm_num) (by norm_num)⟩

theorem list_sum_map_div (l : List ℝ) (c : ℝ) : (l.map (· / c)).sum = l.sum / c := by
  induction l with
  | nil => simp
  | cons a tl ih => simp [ih, add_div]

theorem list_sum_zipWith_add (a b : List ℝ) (h : a.length = b.length) :
    (List.zipWith (· + ·) a b).sum = a.sum + b.sum := by
  induction a generalizing b with
  | nil =>
    cases b with
    | nil => simp
    | cons y ys => simp at h
  | cons x xs ih =>
    cases b with
    | nil => simp at h
    | cons y ys =>
      simp only [List.zipWith_cons_cons, List.sum_cons, ih ys (by simpa using h)]
      ring

/-- Pure list form of the periodic fold-back: for a weight vector of length
`m + N + m` with nonempty extensions no longer than the grid, the two slice
additions succeed and conserve the total sum. -/
theorem periodic_fold_sum (w : List ℝ) (m N : Nat) (h1 : 1 ≤ m) (h2 : m ≤ N)
    (hw : w.length = m + N + m) :
    ∃ p, (sliceAddFront ((w.drop m).take N) m (npTail w m)).bind
        (fun q => sliceAddBack q m (w.take m)) = some p ∧
      p.length = N ∧ p.sum = w.sum := by
  have hmne : m ≠ 0 := by omega
  have hmidlen : ((w.drop m).take N).length = N := by
    simp only [List.length_take, List.length_drop, hw]
    omega
  have hnpt : npTail w m = w.drop (m + N) := by
    simp only [npTail, if_neg hmne, hw]
    congr 1
    omega
  have hnptlen : (npTail w m).length = m := by
    rw [hnpt]
    simp only [List.length_drop, hw]
    omega
  have htake1len : (((w.drop m).take N).take m).length = m := by
    simp only [List.length_take, hmidlen]
    omega
  have hcond1 : (npTail w m).length = (((w.drop m).take N).take m).length := by
    rw [hnptlen, htake1len]
  have hf : sliceAddFront ((w.drop m).take N) m (npTail w m) =
      some (List.zipWith (· + ·) (((w.drop m).take N).take m) (npTail w m) ++
        ((w.drop m).take N).drop m) := by
    simp only [sliceAddFront, npAddInto, if_pos hcond1, Option.map_some']
  set p1 := List.zipWith (· + ·) (((w.drop m).take N).take m) (npTail w m) ++
    ((w.drop m).take N).drop m with hp1
  have hp1len : p1.length = N := by
    simp only [hp1, List.length_append, List.length_zipWith, htake1len, hnptlen,
      List.length_drop, hmidlen]
    omega
  have htake2len : (w.take m).length = m := by
    simp only [List.length_take, hw]
    omega
  have hnpt2 : npTail p1 m = p1.drop (N - m) := by
    simp only [npTail, if_neg hmne, hp1len]
  have hnpt2len : (npTail p1 m).length = m := by
    rw [hnpt2]
    simp only [List.length_drop, hp1len]
    omega
  have hcond2 : (w.take m).length = (npTail p1 m).length := by
    rw [htake2len, hnpt2len]
  have hcond2' : (w.take m).length = (p1.drop (N - m)).length := by
    rw [← hnpt2]
    exact hcond2
  have hb : sliceAddBack p1 m (w.take m) =
      some (p1.take (N - m) ++ List.zipWith (· + ·) (p1.drop (N - m)) (w.take m)) := by
    simp only [sliceAddBack, hnpt2, npAddInto, if_pos hcond2', Option.map_some',
      if_neg hmne, hp1len]
  refine ⟨_, by rw [hf]; exact hb, ?_, ?_⟩
  · simp only [List.length_append, List.length_take, List.length_zipWith,
      List.length_drop, hp1len, htake2len]
    omega
  · have hsum1 : (List.zipWith (· + ·) (p1.drop (N - m)) (w.take m)).sum =
        (p1.drop (N - m)).sum + (w.take m).sum := by
      refine list_sum_zipWith_add _ _ ?_
      simp only [List.length_drop, hp1len, htake2len]
      omega
    have hsum2 : (List.zipWith (· + ·) (((w.drop m).take N).take m) (npTail w m)).sum =
        (((w.drop m).take N).take m).sum + (npTail w m).sum := by
      refine list_sum_zipWith_add _ _ ?_
      rw [htake1len, hnptlen]
    have hsplit1 : (p1.take (N - m)).sum + (p1.drop (N - m)).sum = p1.sum :=
      List.sum_take_add_sum_drop p1 (N - m)
    have hsplit2 : (((w.drop m).take N).take m).sum + (((w.drop m).take N).drop m).sum =
        ((w.drop m).take N).sum :=
      List.sum_take_add_sum_drop _ m
    have hsplit3 : (w.take m).sum + (w.drop m).sum = w.sum :=
      List.sum_take_add_sum_drop w m
    have hsplit4 : ((w.drop m).take N).sum + ((w.drop m).drop N).sum = (w.drop m).sum :=
      List.sum_take_add_sum_drop _ N
    have hdd : (w.drop m).drop N = w.drop (m + N) := by
      rw [List.drop_drop]
      try (congr 1; omega)
    have hp1sum : p1.sum = (((w.drop m).take N).take m).sum + (npTail w m).sum +
        (((w.drop m).take N).drop m).sum := by
      simp only [hp1, List.sum_append, hsum2]
    simp only [List.sum_append, hsum1]
    rw [hnpt] at hp1sum
    rw [← hdd] at hp1sum
    linarith

/-- The logistic-difference kernel is strictly positive for positive width and
positive sigma. -/
theorem smoothed_box_fct_pos (t t0 w sigma : ℝ) (hw : 0 < w) (hs : 0 < sigma) :
    0 < smoothed_box_fct t t0 w sigma := by
  unfold smoothed_box_fct
  have hnum : -(t - (t0 - w / 2)) < -(t - (t0 + w / 2)) := by linarith
  have hA : -(t - (t0 - w / 2)) / sigma < -(t - (t0 + w / 2)) / sigma := by
    rw [div_lt_div_iff hs hs]
    exact mul_lt_mul_of_pos_right hnum hs
  have h1 : 0 < 1 + Real.exp (-(t - (t0 - w / 2)) / sigma) := by positivity
  have h2 : 1 + Real.exp (-(t - (t0 - w / 2)) / sigma) <
      1 + Real.exp (-(t - (t0 + w / 2)) / sigma) := by
    have := Real.exp_lt_exp.mpr hA
    linarith
  have h3 := one_div_lt_one_div_of_lt h1 h2
  linarith

theorem normalizedWeighting_length (t_range : List ℝ) (sigma t0 : ℝ) :
    (normalizedWeighting t_range sigma t0).length =
      (reconciledBoundaries t_range).1.length + t_range.length +
        (reconciledBoundaries t_range).2.length := by
  simp [normalizedWeighting]
  omega

/-- The normalized discrete weights of the box kernel sum to exactly 1 for a
nonempty grid with positive extracted spacing and positive sigma. -/
theorem normalizedWeighting_sum_one (t_range : List ℝ) (sigma t0 : ℝ)
    (hne : t_range ≠ [])
    (hdt : 0 < t_range.getD 1 0 - t_range.getD 0 0) (hs : 0 < sigma) :
    (normalizedWeighting t_range sigma t0).sum = 1 := by
  simp only [normalizedWeighting]
  rw [list_sum_map_div]
  refine div_self (ne_of_gt (List.sum_pos _ ?_ ?_))
  · intro v hv
    rw [List.mem_map] at hv
    obtain ⟨t, _, rfl⟩ := hv
    exact smoothed_box_fct_pos t t0 _ sigma hdt hs
  · simp [hne]

/-- Claim C1 (amended): for every kernel width sigma greater than 0 and every
uniformly spaced time grid whose quarter-cycle extensions are nonempty (at
least six samples) and no longer than the grid itself, the periodic weight
vector produced inside `temporal_smoothing_box_function_toeger` — kernel
evaluation over the extended axis, normalization of the discrete weights,
fold-back of both extension segments — exists and sums to exactly 1 for every
output time `t0` of the grid. -/
theorem periodic_weight_vector_sums_to_one (s dt sigma t0 : ℝ) (N : Nat)
    (hdt : 0 < dt) (hs : 0 < sigma) (hN : 6 ≤ N)
    (_ht0 : t0 ∈ uniformGrid s dt N) :
    ∃ p, periodicWeighting (uniformGrid s dt N) sigma t0 = some p ∧
      p.length = N ∧ p.sum = 1 := by
  have hK2 : (2 : ℤ) ≤ ⌈((N : ℝ) - 1) / 4⌉ := by
    have h6 : (6 : ℝ) ≤ (N : ℝ) := by exact_mod_cast hN
    have : (1 : ℤ) < ⌈((N : ℝ) - 1) / 4⌉ := by
      rw [Int.lt_ceil]
      rw [lt_div_iff (by norm_num : (0 : ℝ) < 4)]
      push_cast
      linarith
    omega
  have hKN : ⌈((N : ℝ) - 1) / 4⌉ ≤ (N : ℤ) := by
    have h6 : (6 : ℝ) ≤ (N : ℝ) := by exact_mod_cast hN
    rw [Int.ceil_le]
    rw [div_le_iff (by norm_num : (0 : ℝ) < 4)]
    push_cast
    linarith
  set m := (⌈((N : ℝ) - 1) / 4⌉).toNat - 1 with hm
  have hm1 : 1 ≤ m := by omega
  have hmN : m ≤ N := by omega
  have hlenL : (reconciledBoundaries (uniformGrid s dt N)).1.length = m := by
    rw [reconciledBoundaries_eq s dt N hdt (by omega),
      extLeft_length s dt N hdt (by omega)]
  have hlenR : (reconciledBoundaries (uniformGrid s dt N)).2.length = m := by
    rw [reconciledBoundaries_eq s dt N hdt (by omega),
      extRight_length s dt N hdt (by omega), Int.ceil_sub_one]
    omega
  have hwlen : (normalizedWeighting (uniformGrid s dt N) sigma t0).length
      = m + N + m := by
    rw [normalizedWeighting_length, hlenL, hlenR, uniformGrid_length]
  have hdtex : (uniformGrid s dt N).getD 1 0 - (uniformGrid s dt N).getD 0 0 = dt := by
    rw [uniformGrid_getD s dt N 1 (by omega), uniformGrid_getD s dt N 0 (by omega)]
    push_cast
    ring
  have hsum : (normalizedWeighting (uniformGrid s dt N) sigma t0).sum = 1 := by
    refine normalizedWeighting_sum_one _ _ _ ?_ ?_ hs
    · intro hnil
      have := uniformGrid_length s dt N
      rw [hnil] at this
      simp at this
      omega
    · rw [hdtex]
      exact hdt
  obtain ⟨p, hp, hplen, hpsum⟩ := periodic_fold_sum
    (normalizedWeighting (uniformGrid s dt N) sigma t0) m N hm1 hmN hwlen
  refine ⟨p, ?_, by rw [hplen], by rw [hpsum, hsum]⟩
  simp only [periodicWeighting]
  rw [hlenL, hlenR, uniformGrid_length]
  exact hp

/-- Witness for C1 (amended): on the 6-sample unit grid with sigma 1 the
periodic weight vector for the first output time sums to exactly 1. -/
theorem periodic_weight_vector_sums_to_one_witness :
    (periodicWeighting (uniformGrid 0 1 6) 1 0).map List.sum = some 1 := by
  obtain ⟨p, hp, _, hsum⟩ := periodic_weight_vector_sums_to_one 0 1 1 0 6
    (by norm_num) (by norm_num) (by norm_num)
    (List.mem_map.mpr ⟨0, by simp, by norm_num⟩)
  rw [hp, Option.map_some', hsum]

/-- Claim C1 (counterexample): on the uniform 2-sample grid the quarter-cycle
extensions are empty, `weighting[-0:]` is the whole array (the numpy `-0`
slice pitfall), and the fold-back step `periodic[:0] += weighting[-0:]`
raises a broadcast `ValueError` — no periodic weight vector is produced at
all, so the claim fails on a grid whose extensions are no longer than the
grid. -/
theorem periodic_weighting_small_grid_fails :
    periodicWeighting (uniformGrid 0 1 2) 1 0 = none := by
  have hlenL : (reconciledBoundaries (uniformGrid 0 1 2)).1.length = 0 := by
    rw [reconciledBoundaries_eq 0 1 2 (by norm_num) (by norm_num),
      extLeft_length 0 1 2 (by norm_num) (by norm_num)]
    norm_num
    rw [show (⌈(1 / 4 : ℝ)⌉ : ℤ) = 1 from by rw [Int.ceil_eq_iff]; norm_num]
    rfl
  have hlenR : (reconciledBoundaries (uniformGrid 0 1 2)).2.length = 0 := by
    rw [reconciledBoundaries_eq 0 1 2 (by norm_num) (by norm_num),
      extRight_length 0 1 2 (by norm_num) (by norm_num)]
    norm_num
    rw [Int.ceil_le]
    norm_num
  have hwlen : (normalizedWeighting (uniformGrid 0 1 2) 1 0).length = 2 := by
    rw [normalizedWeighting_length, hlenL, hlenR, uniformGrid_length]
  simp only [periodicWeighting]
  rw [hlenL, hlenR, uniformGrid_length]
  simp [sliceAddFront, npTail, npAddInto, hwlen]
